import Mathlib

/-!
# Verification of the justnovel text-processing core

A shallow embedding of the algorithmic core of the `justnovel` repository:

* `src/utils/textProcessing.ts` — CJK numeral conversion (`chineseToNumber`),
  chapter segmentation (`parseNovel`), lemmatization (`getLemma`),
  lexical classification (`getWordLevel`) and target-word extraction
  (`analyzeTextForVocab`);
* `src/components/PDFView.tsx` — the layout-balancing chunker
  (`computeSmartChunks`) and its height-estimation helpers;
* `src/App.tsx` — the state update applied by `handleGenerateNotes` when the
  annotation collaborator returns its results.

JavaScript strings are modelled as Lean `String`s; string primitives that the
source uses (`endsWith`, `slice(0, -n)`, `length`, `toLowerCase`, character
classes) are re-implemented on the underlying character list so that proofs
can reason about them directly.  The irregular-verb table `IRREGULAR_VERBS`
(from `src/constants.ts`, whose contents are not part of the analysed sources)
is modelled, following the spec's design note, as an immutable lookup map
passed as a parameter `irr : String → Option String`; `irr w = none` models a
word that is absent from the table (or mapped to a falsy value).
-/

/-- JS `s.length` (all strings involved live in the basic multilingual plane,
where UTF-16 length and scalar count agree). -/
def lengthL (s : String) : Nat := s.data.length

/-- JS `suffix.length ≤ s.length && s.endsWith(suffix)`. -/
def endsWithL (s suffix : String) : Bool := suffix.data.isSuffixOf s.data

/-- JS `s.slice(0, -n)` for `0 < n ≤ s.length` (drop the last `n` characters). -/
def dropRightL (s : String) (n : Nat) : String :=
  ⟨s.data.take (s.data.length - n)⟩

/-- JS `s.toLowerCase()` (ASCII case mapping; the classifier only ever
lowercases ASCII letters). -/
def toLowerL (s : String) : String := ⟨s.data.map Char.toLower⟩

/-- JS `s.replace(/[^a-zA-Z]/g, '').toLowerCase()`. -/
def cleanWordL (s : String) : String :=
  ⟨(s.data.filter Char.isAlpha).map Char.toLower⟩

/-- A six-tier vocabulary database: `vocabDB[i]` for `i = 1..6` is a set of
lowercase word forms, modelled as a list queried by membership. -/
structure VocabDB where
  t1 : List String
  t2 : List String
  t3 : List String
  t4 : List String
  t5 : List String
  t6 : List String
deriving DecidableEq

/-- `vocabDB[i]` of the source (tiers outside 1..6 are never accessed). -/
def VocabDB.tier (db : VocabDB) : Nat → List String
  | 1 => db.t1
  | 2 => db.t2
  | 3 => db.t3
  | 4 => db.t4
  | 5 => db.t5
  | 6 => db.t6
  | _ => []

/-- JS `vocabDB[i].has(w)`. -/
def VocabDB.hasW (db : VocabDB) (i : Nat) (w : String) : Bool :=
  (db.tier i).contains w

/-- The ascending tier scan `for (let i = 1; i <= 6; i++) if (vocabDB[i].has(w)) return i`,
returning the first (hence least) tier containing `w`, if any. -/
def firstTier (db : VocabDB) (w : String) : Option Nat :=
  [1, 2, 3, 4, 5, 6].find? (fun i => db.hasW i w)

/-- The inner helper `checkLevel` of `getLemma`: first tier containing `w`,
or `0` when none does. -/
def checkLevel (db : VocabDB) (w : String) : Nat :=
  (firstTier db w).getD 0

/-- The `if word.endsWith('s') … if (word.endsWith('est') …` fall-through chain
at the tail of `getLemma` (reached when the `'ly'` branch does not return). -/
def suffixChain (word : String) : String :=
  if endsWithL word "s" && decide (lengthL word > 3) then dropRightL word 1
  else if endsWithL word "ed" && decide (lengthL word > 4) then dropRightL word 2
  else if endsWithL word "ing" && decide (lengthL word > 5) then dropRightL word 3
  else if endsWithL word "er" && decide (lengthL word > 4) then dropRightL word 2
  else if endsWithL word "est" && decide (lengthL word > 5) then dropRightL word 3
  else word

/-- `getLemma` of `src/utils/textProcessing.ts`.  The irregular table is the
parameter `irr` (see the module docstring). -/
def getLemma (irr : String → Option String) (word : String) (vocabDB : VocabDB) :
    String :=
  let w := toLowerL word
  match irr w with
  | some base => base
  | none =>
    if endsWithL w "ly" then
      let base := dropRightL w 2
      if checkLevel vocabDB base > 0 then base
      else if endsWithL w "ily" then dropRightL w 3 ++ "y"
      else suffixChain w
    else suffixChain w

/-- `getWordLevel` of `src/utils/textProcessing.ts`. -/
def getWordLevel (irr : String → Option String) (word : String) (vocabDB : VocabDB) :
    Nat :=
  let cleanWord := cleanWordL word
  let lem := getLemma irr cleanWord vocabDB
  if lengthL cleanWord < 2 then 0
  else
    match firstTier vocabDB cleanWord with
    | some i => i
    | none =>
      match firstTier vocabDB lem with
      | some i => i
      | none => 99

/-- The irregular-form table with no (truthy) entries, used to instantiate
hypotheses of the form "the word is not in the irregular-form table". -/
def irrNone : String → Option String := fun _ => none

/-- The character-value map of `chineseToNumber`. -/
def cnCharVal (c : Char) : Option Nat :=
  if c = '零' ∨ c = '〇' ∨ c = '0' then some 0
  else if c = '一' ∨ c = '1' then some 1
  else if c = '二' ∨ c = '两' ∨ c = '2' then some 2
  else if c = '三' ∨ c = '3' then some 3
  else if c = '四' ∨ c = '4' then some 4
  else if c = '五' ∨ c = '5' then some 5
  else if c = '六' ∨ c = '6' then some 6
  else if c = '七' ∨ c = '7' then some 7
  else if c = '八' ∨ c = '8' then some 8
  else if c = '九' ∨ c = '9' then some 9
  else if c = '十' then some 10
  else if c = '百' then some 100
  else if c = '千' then some 1000
  else none

/-- One iteration of `chineseToNumber`'s loop.  State: `(result, current, hasUnit)`. -/
def cnStep (st : Nat × Nat × Bool) (c : Char) : Nat × Nat × Bool :=
  let (result, current, hasUnit) := st
  match cnCharVal c with
  | none => st
  | some v =>
    if v ≥ 10 then
      let current' := if current = 0 ∧ hasUnit = false ∧ v = 10 then 1 else current
      (result + current' * v, 0, true)
    else (result, v, hasUnit)

/-- `chineseToNumber` of `src/utils/textProcessing.ts`. -/
def chineseToNumber (cn : String) : String :=
  if cn.data ≠ [] ∧ cn.data.all Char.isDigit then cn
  else
    let st := cn.data.foldl cnStep (0, 0, false)
    toString (st.1 + st.2.1)

/-- JS `\w` (word character) for the ASCII-only regexes of the source:
a Latin letter, a digit, or an underscore. -/
def wordChar (c : Char) : Bool := c.isAlphanum || c == '_'

/-- Scanner for the token regex `\b[a-zA-Z]+\b` of `analyzeTextForVocab`:
a match is a maximal run of Latin letters whose neighbouring characters
(when present) are not word characters.  State: `prevIsWord` says whether the
previously consumed character was a word character (`false` at the start of
the string), `okStart` whether the run in progress began at a valid word
boundary, `cur` is the run in progress, reversed. -/
def tokenizeAux (prevIsWord okStart : Bool) (cur : List Char) :
    List Char → List String
  | [] => if cur ≠ [] ∧ okStart then [⟨cur.reverse⟩] else []
  | c :: rest =>
    if c.isAlpha then
      match cur with
      | [] => tokenizeAux true (!prevIsWord) [c] rest
      | _ => tokenizeAux true okStart (c :: cur) rest
    else
      if cur ≠ [] ∧ okStart ∧ ¬wordChar c then
        ⟨cur.reverse⟩ :: tokenizeAux (wordChar c) false [] rest
      else
        tokenizeAux (wordChar c) false [] rest

/-- JS `text.match(/\b[a-zA-Z]+\b/g) || []`. -/
def tokenize (text : String) : List String := tokenizeAux false false [] text.data

/-- JS `w[0] === w[0].toUpperCase() && w[0] !== w[0].toLowerCase()`
(false on the empty string, where `w[0]` is `undefined`). -/
def isCapitalized (w : String) : Bool :=
  match w.data with
  | [] => false
  | c :: _ => c.toUpper == c && c.toLower != c

/-- A target word as produced by `analyzeTextForVocab`. -/
structure TargetWord where
  word : String
  level : Nat
deriving DecidableEq

/-- The `words.forEach` loop of `analyzeTextForVocab`; `seen` is the
`uniqueCheck` set of already-emitted lowercase forms. -/
def analyzeAux (irr : String → Option String) (db : VocabDB) :
    List String → List String → List TargetWord
  | [], _ => []
  | w :: ws, seen =>
    let lowerW := toLowerL w
    let level := getWordLevel irr lowerW db
    if level = 99 ∧ isCapitalized w = true then analyzeAux irr db ws seen
    else if (level ≥ 3 ∨ level = 99) ∧ lowerW ∉ seen then
      ⟨w, level⟩ :: analyzeAux irr db ws (lowerW :: seen)
    else analyzeAux irr db ws seen

/-- `analyzeTextForVocab` of `src/utils/textProcessing.ts`. -/
def analyzeTextForVocab (irr : String → Option String) (text : String)
    (db : VocabDB) : List TargetWord :=
  analyzeAux irr db (tokenize text) []

/-- Segment lifecycle states. -/
inductive SegStatus
  | pending
  | translating
  | processing
  | done
  | error
deriving DecidableEq

/-- A vocabulary annotation entry (`VocabWord` of `src/types.ts`).  The field
`l` is `number | string` in the source and is consumed through
`parseInt(v.l)`; it is modelled as the parsed numeral, `none` standing for a
value `parseInt` cannot parse.  The source field `def` is called `df` here
(`def` is reserved). -/
structure VocabWord where
  w : String
  l : Option Nat
  cm : String
  df : String
deriving DecidableEq

/-- `VocabResult` of `src/types.ts`. -/
structure VocabResult where
  id : String
  vocab : List VocabWord
deriving DecidableEq

/-- `Segment` of `src/types.ts`. -/
structure Segment where
  id : String
  text : String
  isChapterHeader : Bool
  status : SegStatus
  enText : Option String
  vocabResult : Option VocabResult
deriving DecidableEq

/-- `Chapter` of `src/types.ts`. -/
structure Chapter where
  title : String
  segments : List Segment
  isTranslated : Bool
deriving DecidableEq

/-- JS `text.split(/\r?\n/)`: split at each newline, where a newline may be
preceded by a carriage return (a lone carriage return does not split). -/
def splitLinesAux : List Char → List Char → List String
  | '\r' :: '\n' :: rest, cur => ⟨cur.reverse⟩ :: splitLinesAux rest []
  | '\n' :: rest, cur => ⟨cur.reverse⟩ :: splitLinesAux rest []
  | c :: rest, cur => splitLinesAux rest (c :: cur)
  | [], cur => [⟨cur.reverse⟩]

/-- The line list of `parseNovel`. -/
def splitLines (text : String) : List String := splitLinesAux text.data []

/-- JS whitespace, as matched by `\s` and removed by `String.prototype.trim`. -/
def isJsWs (c : Char) : Bool :=
  let n := c.toNat
  n == 32 || n == 9 || n == 10 || n == 13 || n == 11 || n == 12 ||
  n == 160 || n == 0x1680 || (decide (0x2000 ≤ n) && decide (n ≤ 0x200A)) ||
  n == 0x2028 || n == 0x2029 || n == 0x202F || n == 0x205F ||
  n == 0x3000 || n == 0xFEFF

/-- JS `line.trim()`. -/
def trimL (s : String) : String :=
  ⟨((s.data.dropWhile isJsWs).reverse.dropWhile isJsWs).reverse⟩

/-- The character class `[0-9零一二三四五六七八九十百千]` of the chapter regex. -/
def cjkNumChar (c : Char) : Bool :=
  c.isDigit || (['零', '一', '二', '三', '四', '五', '六', '七', '八', '九',
    '十', '百', '千'] : List Char).contains c

/-- The character class `[章卷回節篇]` of the chapter regex. -/
def chapterUnitChar (c : Char) : Bool :=
  (['章', '卷', '回', '節', '篇'] : List Char).contains c

/-- The alternative `第[0-9零一二三四五六七八九十百千]+[章卷回節篇]` of the
chapter regex (the numeral class and the unit class are disjoint, so the
greedy scan is exact). -/
def matchCJKHeading : List Char → Bool
  | c :: rest =>
    c == '第' &&
      (rest.takeWhile cjkNumChar ≠ [] &&
        match rest.dropWhile cjkNumChar with
        | u :: _ => chapterUnitChar u
        | [] => false)
  | [] => false

/-- Case-insensitive literal match (the regex `i` flag): returns the rest of
the input after the keyword, if the keyword is present at the front. -/
def ciMatch : List Char → List Char → Option (List Char)
  | [], cs => some cs
  | _ :: _, [] => none
  | k :: ks, c :: cs => if k.toLower = c.toLower then ciMatch ks cs else none

/-- The character class `[\dIVX]` under the regex `i` flag. -/
def romanDigitChar (c : Char) : Bool :=
  c.isDigit || (['I', 'V', 'X', 'i', 'v', 'x'] : List Char).contains c

/-- The tail `\s*\.?\s*[\dIVX]+` of the Latin alternative of the chapter
regex (the greedy scan is deterministic here: no class overlaps `\s` or `.`). -/
def latinNumTail (cs : List Char) : Bool :=
  let r1 := cs.dropWhile isJsWs
  let r2 := match r1 with
    | '.' :: t => t
    | _ => r1
  let r3 := r2.dropWhile isJsWs
  match r3 with
  | c :: _ => romanDigitChar c
  | [] => false

/-- The alternative `(?:Chapter|Part|Vol|Book)\s*\.?\s*[\dIVX]+` of the
chapter regex, case-insensitive. -/
def matchLatinHeading (cs : List Char) : Bool :=
  (["chapter", "part", "vol", "book"] : List String).any fun kw =>
    match ciMatch kw.data cs with
    | some rest => latinNumTail rest
    | none => false

/-- The named-section alternatives of the chapter regex:
`序[章言]?` (the bracket part is optional, so a leading `序` suffices),
the CJK literals, and the case-insensitive Latin literals. -/
def matchNamedHeading (cs : List Char) : Bool :=
  (match cs with
    | '序' :: _ => true
    | _ => false) ||
  ((["楔子", "番外", "后记", "後記", "尾声", "尾聲"] : List String).any fun kw =>
    kw.data.isPrefixOf cs) ||
  ((["introduction", "prologue", "epilogue"] : List String).any fun kw =>
    (ciMatch kw.data cs).isSome)

/-- `chapterRegex.test(clean)`: the regex is anchored by `^\s*` and
`RegExp.test` only asks for a match at the front. -/
def chapterRegexTest (s : String) : Bool :=
  let cs := s.data.dropWhile isJsWs
  matchCJKHeading cs || matchLatinHeading cs || matchNamedHeading cs

/-- A freshly created segment of `parseNovel` (`seg-${globalIdCounter++}`). -/
def mkSegment (ctr : Nat) (text : String) (isHeader : Bool) : Segment :=
  { id := "seg-" ++ toString ctr, text := text, isChapterHeader := isHeader,
    status := .pending, enText := none, vocabResult := none }

/-- The `lines.forEach` loop of `parseNovel` followed by the final push:
`cur` is `currentChap`, `ctr` is `globalIdCounter`, `chaps` the chapters
archived so far. -/
def parseNovelAux : List String → Chapter → Nat → List Chapter → List Chapter
  | [], cur, _, chaps => if cur.segments.length > 0 then chaps ++ [cur] else chaps
  | line :: rest, cur, ctr, chaps =>
    let clean := trimL line
    if clean = "" then parseNovelAux rest cur ctr chaps
    else if chapterRegexTest clean = true then
      let chaps' :=
        if cur.segments.length > 0 ∨ cur.title ≠ "Start" then chaps ++ [cur]
        else chaps
      parseNovelAux rest
        { title := clean, segments := [mkSegment ctr clean true],
          isTranslated := false } (ctr + 1) chaps'
    else
      parseNovelAux rest
        { cur with segments := cur.segments ++ [mkSegment ctr clean false] }
        (ctr + 1) chaps

/-- `parseNovel` of `src/utils/textProcessing.ts`. -/
def parseNovel (text : String) : List Chapter :=
  parseNovelAux (splitLines text)
    { title := "Start", segments := [], isTranslated := false } 0 []

/-- A print item (`PrintItem` of the spec's data model; in the source, objects
`{type, data}` pushed by `addToPdfState`).  Content data carries `cn`
(always present), the optional translation `en` and the optional annotation
list `vocab`. -/
inductive PrintItem
  | header (text : String)
  | content (cn : String) (en : Option String) (vocab : Option (List VocabWord))
  | pagebreak
deriving DecidableEq

/-- `item.type === 'content'`. -/
def PrintItem.isContent : PrintItem → Bool
  | .content _ _ _ => true
  | _ => false

/-- A layout row (`{type:'smart-row', items}` / `{type:'item', item, index}` of
`computeSmartChunks`).  Batch entries are `(item, index)` pairs. -/
inductive Chunk
  | smartRow (items : List (PrintItem × Nat))
  | item (it : PrintItem) (index : Nat)
deriving DecidableEq

/-- `parseInt(v.l) || getWordLevel(v.w, vocabDB)`: the parsed numeric level
when it is a nonzero number, the classifier's level otherwise (`0` and
non-numeric strings are falsy). -/
def effectiveLevel (irr : String → Option String) (db : VocabDB) (v : VocabWord) :
    Nat :=
  match v.l with
  | some n => if n = 0 then getWordLevel irr v.w db else n
  | none => getWordLevel irr v.w db

/-- `getValidVocabCount` of `src/components/PDFView.tsx`: the number of
entries whose level lies in 3..6 (only those generate sidebar cards). -/
def getValidVocabCount (irr : String → Option String)
    (vocab : Option (List VocabWord)) (db : VocabDB) : Nat :=
  match vocab with
  | none => 0
  | some vs =>
    (vs.filter fun v =>
      let l := effectiveLevel irr db v
      decide (l ≥ 3) && decide (l ≤ 6)).length

/-- `estimateTextHeight` of `src/components/PDFView.tsx` (heights are exact
rationals; the source computes the same expressions in floating point). -/
def estimateTextHeight (en cn : Option String) : ℚ :=
  let enLen := match en with
    | some s => lengthL s
    | none => 0
  let cnLen := match cn with
    | some s => lengthL s
    | none => 0
  let enLines : Nat := if (enLen + 41) / 42 = 0 then 1 else (enLen + 41) / 42
  let cnLines : Nat := if (cnLen + 24) / 25 = 0 then 1 else (cnLen + 24) / 25
  (enLines : ℚ) * 6.7 + (cnLines : ℚ) * 3.0 + 2

/-- `estimateCardHeight` of `src/components/PDFView.tsx`. -/
def estimateCardHeight (count : Nat) : ℚ := (count : ℚ) * 4.5

/-- The `items.forEach` loop of `computeSmartChunks`, followed by the final
flush.  The input list is pre-paired with indices (`forEach`'s second
argument); `batch`, `accTextH`, `accCardH` are the loop's accumulators. -/
def smartAux (irr : String → Option String) (db : VocabDB) :
    List (Nat × PrintItem) → List (PrintItem × Nat) → ℚ → ℚ → List Chunk
  | [], batch, _, _ => if batch.isEmpty then [] else [.smartRow batch]
  | (index, item) :: rest, batch, accTextH, accCardH =>
    match item with
    | .content cn en vocab =>
      let batch' := batch ++ [(PrintItem.content cn en vocab, index)]
      let accTextH' := accTextH + estimateTextHeight en (some cn)
      let accCardH' := accCardH + estimateCardHeight (getValidVocabCount irr vocab db)
      if accTextH' ≥ accCardH' * 0.95 then
        .smartRow batch' :: smartAux irr db rest [] 0 0
      else smartAux irr db rest batch' accTextH' accCardH'
    | _ =>
      if batch.isEmpty then .item item index :: smartAux irr db rest batch accTextH accCardH
      else .smartRow batch :: .item item index :: smartAux irr db rest [] 0 0

/-- `computeSmartChunks` of `src/components/PDFView.tsx`. -/
def computeSmartChunks (irr : String → Option String) (items : List PrintItem)
    (db : VocabDB) : List Chunk :=
  smartAux irr db items.enum [] 0 0

/-- JS truthiness of `seg.enText` (`undefined` and the empty string are falsy). -/
def truthyEn (seg : Segment) : Bool :=
  match seg.enText with
  | some s => s ≠ ""
  | none => false

/-- `chap.segments.find(s => s.id === id)` followed by an update of the found
segment: rewrites the first segment with the given id (when `p` holds of it)
and leaves everything else in place. -/
def updateSegIf (p : Segment → Bool) (f : Segment → Segment) (id : String) :
    List Segment → List Segment
  | [] => []
  | s :: rest =>
    if s.id = id then (if p s then f s :: rest else s :: rest)
    else s :: updateSegIf p f id rest

/-- Apply a first-matching-segment update in every chapter (the source's
`for (const chap of newChapters)` loops run `find` in each chapter and do not
break after a hit). -/
def updateChapters (p : Segment → Bool) (f : Segment → Segment) (id : String)
    (chaps : List Chapter) : List Chapter :=
  chaps.map fun chap => { chap with segments := updateSegIf p f id chap.segments }

/-- The ids entering the request payload of `handleGenerateNotes`: requested
ids whose segment exists and has a truthy `enText`. -/
def payloadIds (chaps : List Chapter) (segmentIds : List String) : List String :=
  segmentIds.filter fun id =>
    chaps.any fun chap =>
      match chap.segments.find? (fun s => s.id == id) with
      | some s => truthyEn s
      | none => false

/-- The chapter-state update performed by `handleGenerateNotes` of
`src/App.tsx` on the success path: mark payload segments `processing`, attach
each returned result to its segment and mark it `done`, then mark payload
segments whose id is missing from the results as `error`.  (The surrounding
API call, timers and modal bookkeeping have no effect on the chapter state.) -/
def handleGenerateNotes (chaps : List Chapter) (segmentIds : List String)
    (results : List VocabResult) : List Chapter :=
  let c1 := segmentIds.foldl
    (fun cs id => updateChapters truthyEn (fun s => { s with status := .processing }) id cs)
    chaps
  let succeededIds := results.map (·.id)
  let c2 := results.foldl
    (fun cs res =>
      updateChapters (fun _ => true)
        (fun s => { s with vocabResult := some res, status := .done }) res.id cs)
    c1
  (payloadIds chaps segmentIds).foldl
    (fun cs id =>
      if id ∈ succeededIds then cs
      else updateChapters (fun _ => true) (fun s => { s with status := .error }) id cs)
    c2

/-! ## Specification-side definitions

The following definitions are written from the words of the specification's
claims (not from the source); the theorems below compare them with the
source-derived definitions above. -/

/-- A base form "present in some vocabulary tier". -/
def knownWord (db : VocabDB) (w : String) : Bool :=
  ([1, 2, 3, 4, 5, 6] : List Nat).any fun i => db.hasW i w

/-- The claim's reading of `getLemma`: the suffix rules are evaluated in the
fixed order as independent fallbacks and the lemma is the stripped base form
of the first rule whose result is present in some vocabulary tier; if no rule
produces a known-vocabulary base form, the lemma is the word itself. -/
def getLemmaClaim (irr : String → Option String) (word : String) (db : VocabDB) :
    String :=
  let w := toLowerL word
  match irr w with
  | some base => base
  | none =>
    let candidates : List String :=
      (if endsWithL w "ly" then [dropRightL w 2] else []) ++
      (if endsWithL w "ily" then [dropRightL w 3 ++ "y"] else []) ++
      (if endsWithL w "s" && decide (lengthL w > 3) then [dropRightL w 1] else []) ++
      (if endsWithL w "ed" && decide (lengthL w > 4) then [dropRightL w 2] else []) ++
      (if endsWithL w "ing" && decide (lengthL w > 5) then [dropRightL w 3] else []) ++
      (if endsWithL w "er" && decide (lengthL w > 4) then [dropRightL w 2] else []) ++
      (if endsWithL w "est" && decide (lengthL w > 5) then [dropRightL w 3] else [])
    match candidates.find? (knownWord db) with
    | some b => b
    | none => w

/-- The amended reading of `getLemma` for words outside the irregular table:
only the `"ly"` strip is vocabulary-gated (with the unconditional `"ily"→"y"`
variant as its only fallback — no later rule can apply to a word ending in
`'y'`); otherwise the first applicable length-gated rule among `"s"`, `"ed"`,
`"ing"`, `"er"`, `"est"` strips unconditionally; if no rule applies the lemma
is the word itself. -/
def getLemmaAmended (word : String) (db : VocabDB) : String :=
  let w := toLowerL word
  if endsWithL w "ly" then
    if knownWord db (dropRightL w 2) then dropRightL w 2
    else if endsWithL w "ily" then dropRightL w 3 ++ "y"
    else w
  else
    let rules : List (Option String) :=
      [if endsWithL w "s" && decide (lengthL w > 3) then some (dropRightL w 1) else none,
       if endsWithL w "ed" && decide (lengthL w > 4) then some (dropRightL w 2) else none,
       if endsWithL w "ing" && decide (lengthL w > 5) then some (dropRightL w 3) else none,
       if endsWithL w "er" && decide (lengthL w > 4) then some (dropRightL w 2) else none,
       if endsWithL w "est" && decide (lengthL w > 5) then some (dropRightL w 3) else none]
    match (rules.filterMap id).head? with
    | some b => b
    | none => w

/-- The claim's "smallest tier number 1..6 whose set contains `w`", phrased
through `Nat.find` (the least natural number satisfying the predicate). -/
def leastTier (db : VocabDB) (w : String) : Option Nat :=
  if h : ∃ i, i ∈ ([1, 2, 3, 4, 5, 6] : List Nat) ∧ db.hasW i w = true then
    some (Nat.find h)
  else none

/-- The claim's reading of `getWordLevel`: strip to letters and lowercase;
`0` below two letters; else the smallest tier containing the cleaned form
exactly; else the smallest tier containing the lemma; else `99`. -/
def getWordLevelSpec (irr : String → Option String) (word : String)
    (db : VocabDB) : Nat :=
  let cleanWord := cleanWordL word
  if lengthL cleanWord < 2 then 0
  else
    match leastTier db cleanWord with
    | some i => i
    | none =>
      match leastTier db (getLemma irr cleanWord db) with
      | some i => i
      | none => 99

/-- The claim's emission criterion for a token: its tier is at least 3 or
is 99, except that a tier-99 token capitalized at its first letter is
skipped. -/
def qualifiesTok (irr : String → Option String) (db : VocabDB) (w : String) :
    Bool :=
  let level := getWordLevel irr (toLowerL w) db
  (decide (level ≥ 3) || decide (level = 99)) &&
    !(decide (level = 99) && isCapitalized w)

/-- Keep only the first occurrence of each key (`seen` collects the keys of
entries already kept). -/
def dedupByKeyAux (key : String → String) (seen : List String) :
    List String → List String
  | [] => []
  | w :: ws =>
    if key w ∈ seen then dedupByKeyAux key seen ws
    else w :: dedupByKeyAux key (key w :: seen) ws

/-- The claim's reading of `analyzeTextForVocab`: the qualifying tokens,
deduplicated by lowercase form keeping first qualifying occurrences (hence in
order of first qualifying occurrence, carrying the original casing of that
occurrence), each paired with its tier. -/
def extractSpec (irr : String → Option String) (text : String) (db : VocabDB) :
    List TargetWord :=
  (dedupByKeyAux toLowerL [] ((tokenize text).filter (qualifiesTok irr db))).map
    fun w => ⟨w, getWordLevel irr (toLowerL w) db⟩

/-- Estimated text height contributed by one batch entry. -/
def itemTextHeight : PrintItem → ℚ
  | .content cn en _ => estimateTextHeight en (some cn)
  | _ => 0

/-- Sidebar-qualifying annotation count contributed by one batch entry
(tiers 3 through 6 only). -/
def itemCardCount (irr : String → Option String) (db : VocabDB) :
    PrintItem → Nat
  | .content _ _ vocab => getValidVocabCount irr vocab db
  | _ => 0

/-- The accumulated estimated text height of a batch. -/
def rowTextHeight (batch : List (PrintItem × Nat)) : ℚ :=
  (batch.map fun p => itemTextHeight p.1).sum

/-- The accumulated estimated card height of a batch: linear in the count of
its vocabulary entries with tier between 3 and 6 (tier-99 entries contribute
nothing). -/
def rowCardHeight (irr : String → Option String) (db : VocabDB)
    (batch : List (PrintItem × Nat)) : ℚ :=
  ((batch.map fun p => itemCardCount irr db p.1).sum : Nat) * 4.5

/-- The claim's reading of the chunking loop: the batch closes exactly when,
after adding a content item, the batch's accumulated text height is at least
0.95 times its accumulated card height; a non-content item closes a non-empty
batch and stands alone; leftovers are flushed at end of input. -/
def smartSpecAux (irr : String → Option String) (db : VocabDB) :
    List (Nat × PrintItem) → List (PrintItem × Nat) → List Chunk
  | [], batch => if batch.isEmpty then [] else [.smartRow batch]
  | (index, item) :: rest, batch =>
    if item.isContent then
      let batch' := batch ++ [(item, index)]
      if rowTextHeight batch' ≥ rowCardHeight irr db batch' * 0.95 then
        .smartRow batch' :: smartSpecAux irr db rest []
      else smartSpecAux irr db rest batch'
    else
      if batch.isEmpty then .item item index :: smartSpecAux irr db rest batch
      else .smartRow batch :: .item item index :: smartSpecAux irr db rest []

/-- The claim-side chunker. -/
def smartChunksSpec (irr : String → Option String) (items : List PrintItem)
    (db : VocabDB) : List Chunk :=
  smartSpecAux irr db items.enum []

/-- The claim's per-segment effect of applying annotation results (restricted
to segments with a truthy translation): a requested translated segment whose
id appears in the results becomes `done` with the result attached; a
requested translated segment whose id is absent becomes `error`; everything
else is untouched. -/
def segSpec (segmentIds : List String) (results : List VocabResult)
    (seg : Segment) : Segment :=
  if seg.id ∈ segmentIds ∧ truthyEn seg = true then
    match results.find? (fun r => r.id == seg.id) with
    | some r => { seg with vocabResult := some r, status := .done }
    | none => { seg with status := .error }
  else seg

/-- Number of header segments of a chapter. -/
def headerCount (chap : Chapter) : Nat :=
  (chap.segments.filter fun s => s.isChapterHeader).length

/-- Whether a chapter's first segment is a header segment. -/
def startsWithHeader (chap : Chapter) : Bool :=
  match chap.segments with
  | s :: _ => s.isChapterHeader
  | [] => false

/-! ## Concrete sample data for witnesses and counterexamples -/

/-- The empty vocabulary database. -/
def emptyDB : VocabDB := ⟨[], [], [], [], [], []⟩

/-- A database whose tier 3 contains exactly `"run"`. -/
def dbRun : VocabDB := ⟨[], [], ["run"], [], [], []⟩

/-- A database whose tier 3 contains exactly `"bar"`. -/
def dbBar : VocabDB := ⟨[], [], ["bar"], [], [], []⟩

/-- A content print item with a short text and four sidebar-qualifying
annotation entries (so that its card height exceeds its text height and the
batch stays open). -/
def sampleContent : PrintItem :=
  .content "这是一个测试句子" (some "Hi")
    (some [⟨"alpha", some 3, "", ""⟩, ⟨"beta", some 4, "", ""⟩,
           ⟨"gamma", some 5, "", ""⟩, ⟨"delta", some 6, "", ""⟩])

/-- A header print item. -/
def sampleHeader : PrintItem := .header "第一章"

/-- The claim's sequence [content, content, header, content]. -/
def sampleItems : List PrintItem :=
  [sampleContent, sampleContent, sampleHeader, sampleContent]

/-- The placeholder chapter produced by `parseNovel "hello"`. -/
def chHello : Chapter := ⟨"Start", [mkSegment 0 "hello" false], false⟩

/-- A translated segment whose annotation succeeds. -/
def segDone : Segment := ⟨"seg-0", "a", false, .pending, some "Hello there", none⟩

/-- A translated segment whose annotation is missing from the results. -/
def segMiss : Segment := ⟨"seg-1", "b", false, .pending, some "More text", none⟩

/-- An untranslated segment. -/
def segNoEn : Segment := ⟨"seg-2", "c", false, .pending, none, none⟩

/-- A segment outside the request. -/
def segOut : Segment := ⟨"seg-3", "d", false, .pending, some "Out", none⟩

/-- A sample chapter state. -/
def chSample : List Chapter :=
  [⟨"Start", [segDone, segMiss], false⟩, ⟨"第一章", [segNoEn, segOut], false⟩]

/-- The annotation result returned for `segDone` only. -/
def resSample : VocabResult := ⟨"seg-0", [⟨"hello", some 3, "你好", "greeting"⟩]⟩

/-- The per-segment effect of one `updateSegIf` call, as a total function
(meaningful when segment ids are unique within a chapter). -/
def segUpdate (p : Segment → Bool) (f : Segment → Segment) (id : String)
    (s : Segment) : Segment :=
  if s.id = id then (if p s then f s else s) else s

/-- All segments of a chapter list, in order. -/
def allSegments (chaps : List Chapter) : List Segment :=
  (chaps.map fun ch => ch.segments).flatten

/-! ## Helper lemmas -/

/-- A true `endsWithL` pins down the last character(s). -/
theorem endsWithL_getLast? {s suf : String} (h : endsWithL s suf = true)
    (hne : suf.data ≠ []) : s.data.getLast? = suf.data.getLast? := by
  have hsuf : suf.data <:+ s.data := List.isSuffixOf_iff_suffix.mp h
  obtain ⟨t, ht⟩ := hsuf
  rw [← ht, List.getLast?_append_of_ne_nil _ hne]

/-- Suffixes ending in different characters exclude each other. -/
theorem endsWithL_false_of_getLast {s sfx : String} {c c' : Char}
    (hs : s.data.getLast? = some c) (hsfx : sfx.data.getLast? = some c')
    (hnenil : sfx.data ≠ []) (hne : c ≠ c') : endsWithL s sfx = false := by
  by_contra hcon
  have h' : endsWithL s sfx = true := by
    cases h : endsWithL s sfx with
    | true => rfl
    | false => exact absurd h hcon
  have := endsWithL_getLast? h' hnenil
  rw [hs, hsfx] at this
  exact hne (Option.some_injective _ this)

/-- On a list of positive numbers, the first-hit scan is positive exactly when
some element satisfies the predicate. -/
theorem getD_find?_pos {p : Nat → Bool} :
    ∀ l : List Nat, (∀ i ∈ l, 0 < i) → (((l.find? p).getD 0 > 0) ↔ l.any p = true) := by
  intro l
  induction l with
  | nil => simp
  | cons a t ih =>
    intro hpos
    by_cases hp : p a = true
    · simp [List.find?_cons, hp, hpos a (by simp)]
    · simp [List.find?_cons, hp, ih (fun i hi => hpos i (by simp [hi]))]

/-- `checkLevel … > 0` is exactly membership in some tier. -/
theorem checkLevel_pos_iff (db : VocabDB) (x : String) :
    checkLevel db x > 0 ↔ knownWord db x = true := by
  unfold checkLevel knownWord firstTier
  exact getD_find?_pos [1, 2, 3, 4, 5, 6] (by decide)

/-- A word ending in `"ly"` matches none of the other five suffix rules. -/
theorem suffixChain_of_endsWith_ly {w : String} (hly : endsWithL w "ly" = true) :
    suffixChain w = w := by
  have hlast : w.data.getLast? = some 'y' := by
    rw [endsWithL_getLast? hly (by decide)]
    decide
  have h1 : endsWithL w "s" = false :=
    @endsWithL_false_of_getLast w "s" 'y' 's' hlast (by decide) (by decide) (by decide)
  have h2 : endsWithL w "ed" = false :=
    @endsWithL_false_of_getLast w "ed" 'y' 'd' hlast (by decide) (by decide) (by decide)
  have h3 : endsWithL w "ing" = false :=
    @endsWithL_false_of_getLast w "ing" 'y' 'g' hlast (by decide) (by decide) (by decide)
  have h4 : endsWithL w "er" = false :=
    @endsWithL_false_of_getLast w "er" 'y' 'r' hlast (by decide) (by decide) (by decide)
  have h5 : endsWithL w "est" = false :=
    @endsWithL_false_of_getLast w "est" 'y' 't' hlast (by decide) (by decide) (by decide)
  simp [suffixChain, h1, h2, h3, h4, h5]

/-- The fall-through chain of `getLemma` equals "first applicable rule wins,
unconditionally". -/
theorem suffixChain_eq_rules (w : String) :
    suffixChain w =
      (match (([if endsWithL w "s" && decide (lengthL w > 3) then some (dropRightL w 1) else none,
          if endsWithL w "ed" && decide (lengthL w > 4) then some (dropRightL w 2) else none,
          if endsWithL w "ing" && decide (lengthL w > 5) then some (dropRightL w 3) else none,
          if endsWithL w "er" && decide (lengthL w > 4) then some (dropRightL w 2) else none,
          if endsWithL w "est" && decide (lengthL w > 5) then some (dropRightL w 3) else none] :
            List (Option String)).filterMap id).head? with
        | some b => b
        | none => w) := by
  by_cases h1 : (endsWithL w "s" && decide (lengthL w > 3)) = true
  · simp [suffixChain, h1]
  · by_cases h2 : (endsWithL w "ed" && decide (lengthL w > 4)) = true
    · simp [suffixChain, h1, h2]
    · by_cases h3 : (endsWithL w "ing" && decide (lengthL w > 5)) = true
      · simp [suffixChain, h1, h2, h3]
      · by_cases h4 : (endsWithL w "er" && decide (lengthL w > 4)) = true
        · simp [suffixChain, h1, h2, h3, h4]
        · by_cases h5 : (endsWithL w "est" && decide (lengthL w > 5)) = true
          · simp [suffixChain, h1, h2, h3, h4, h5]
          · simp [suffixChain, h1, h2, h3, h4, h5]

/-- A word contained in no tier has no first tier. -/
theorem firstTier_eq_none (db : VocabDB) (w : String)
    (h : ∀ t ∈ [db.t1, db.t2, db.t3, db.t4, db.t5, db.t6], w ∉ t) :
    firstTier db w = none := by
  rw [firstTier, List.find?_eq_none]
  intro i hi hc
  have hmem := List.mem_of_elem_eq_true hc
  fin_cases hi <;> simp only [VocabDB.tier] at hmem
  · exact h db.t1 (by simp) hmem
  · exact h db.t2 (by simp) hmem
  · exact h db.t3 (by simp) hmem
  · exact h db.t4 (by simp) hmem
  · exact h db.t5 (by simp) hmem
  · exact h db.t6 (by simp) hmem

/-! ## Claim theorems -/

/-- C8: the CJK numeral converter returns "123" for "一百二十三", "10" for
"十", "5" for "五", "42" for "42", and a tens-unit opening the numeral
defaults the preceding digit to 1, so "十二" converts to "12". -/
theorem chineseToNumber_values :
    chineseToNumber "一百二十三" = "123" ∧ chineseToNumber "十" = "10" ∧
    chineseToNumber "五" = "5" ∧ chineseToNumber "42" = "42" ∧
    chineseToNumber "十二" = "12" :=
  ⟨by decide, by decide, by decide, by decide, by decide⟩

/-- C1 (counterexample): on the word "walks" (absent from the irregular
table) and the empty vocabulary database, `getLemma` strips the `"s"` even
though the resulting base "walk" is in no vocabulary tier, while the claim's
reading ("the first rule producing a known-vocabulary base form wins; if
none, the lemma is the word itself") yields "walks". -/
theorem getLemma_vocab_gate_counterexample :
    getLemma irrNone "walks" emptyDB = "walk" ∧
    getLemmaClaim irrNone "walks" emptyDB = "walks" ∧
    getLemma irrNone "walks" emptyDB ≠ getLemmaClaim irrNone "walks" emptyDB :=
  ⟨by decide, by decide, by decide⟩

/-- C1 (amended): for every word not found in the irregular-form table, only
the `"ly"` rule is vocabulary-gated (with the unconditional `"ily"→"y"`
variant as its only fallback); otherwise the first applicable length-gated
rule among `"s"`, `"ed"`, `"ing"`, `"er"`, `"est"` strips unconditionally,
with no vocabulary check; if no rule applies, the lemma is the word itself. -/
theorem getLemma_amended_characterization (irr : String → Option String)
    (word : String) (db : VocabDB) (h : irr (toLowerL word) = none) :
    getLemma irr word db = getLemmaAmended word db := by
  simp only [getLemma, getLemmaAmended, h]
  by_cases hly : endsWithL (toLowerL word) "ly" = true
  · simp only [hly, if_true]
    by_cases hknown : knownWord db (dropRightL (toLowerL word) 2) = true
    · rw [if_pos ((checkLevel_pos_iff db _).mpr hknown), if_pos hknown]
    · have hcl : ¬ checkLevel db (dropRightL (toLowerL word) 2) > 0 := fun hpos =>
        hknown ((checkLevel_pos_iff db _).mp hpos)
      rw [if_neg hcl, if_neg hknown]
      by_cases hily : endsWithL (toLowerL word) "ily" = true
      · rw [if_pos hily, if_pos hily]
      · rw [if_neg hily, if_neg hily, suffixChain_of_endsWith_ly hly]
  · simp only [hly, if_false, Bool.false_eq_true]
    rw [suffixChain_eq_rules]

/-- Witness for C1 (amended), at the concrete input of the counterexample. -/
theorem getLemma_amended_characterization_witness :
    irrNone (toLowerL "walks") = none ∧
    getLemma irrNone "walks" emptyDB = getLemmaAmended "walks" emptyDB :=
  ⟨rfl, getLemma_amended_characterization irrNone "walks" emptyDB rfl⟩

/-- C2 (counterexample): with tier 3 = {"run"} and "running" absent from the
irregular table, `getWordLevel "running"` returns 99, not 3: the `"ing"` rule
strips only the literal suffix, producing "runn", which is in no tier. -/
theorem getWordLevel_running_counterexample :
    "run" ∈ dbRun.t3 ∧ irrNone "running" = none ∧
    getLemma irrNone "running" dbRun = "runn" ∧
    getWordLevel irrNone "running" dbRun = 99 :=
  ⟨by decide, rfl, by decide, by decide⟩

/-- C2 (amended): for every vocabulary database whose tier 3 contains "run"
and in which neither "running" nor its stripped form "runn" is present in any
tier (with "running" not an entry of the irregular-form table),
`getWordLevel "running"` returns 99; the suffix-stripping lemma of "running"
is "runn", so a tier would have to contain "runn" for a lemma hit. -/
theorem getWordLevel_running_amended (irr : String → Option String)
    (db : VocabDB) (hirr : irr "running" = none) (hrun : "run" ∈ db.t3)
    (hverb : ∀ t ∈ [db.t1, db.t2, db.t3, db.t4, db.t5, db.t6], "running" ∉ t)
    (hrunn : ∀ t ∈ [db.t1, db.t2, db.t3, db.t4, db.t5, db.t6], "runn" ∉ t) :
    getWordLevel irr "running" db = 99 := by
  have hclean : cleanWordL "running" = "running" := by decide
  have hlem : getLemma irr "running" db = "runn" := by
    simp only [getLemma, show toLowerL "running" = "running" from by decide, hirr]
    rw [if_neg (by decide : ¬ endsWithL "running" "ly" = true)]
    decide
  simp only [getWordLevel, hclean, hlem,
    firstTier_eq_none db "running" hverb, firstTier_eq_none db "runn" hrunn]
  decide

/-- Witness for C2 (amended): the concrete database with tier 3 = {"run"}. -/
theorem getWordLevel_running_amended_witness :
    getWordLevel irrNone "running" dbRun = 99 :=
  getWordLevel_running_amended irrNone dbRun rfl (by decide) (by decide) (by decide)

/-- C7 (counterexample): `parseNovel "hello"` yields a single (placeholder)
chapter with no header segment at all, refuting "every chapter has exactly
one header segment". -/
theorem parseNovel_placeholder_counterexample :
    parseNovel "hello" = [chHello] ∧ headerCount chHello = 0 :=
  ⟨by decide, by decide⟩

/-- The ascending first-hit tier scan returns exactly the least tier (the
claim's "smallest tier number whose set contains the word"). -/
theorem firstTier_eq_leastTier (db : VocabDB) (w : String) :
    firstTier db w = leastTier db w := by
  rw [firstTier, leastTier]
  by_cases h : ∃ i, i ∈ ([1, 2, 3, 4, 5, 6] : List Nat) ∧ db.hasW i w = true
  · rw [dif_pos h]
    by_cases h1 : db.hasW 1 w = true
    · rw [show List.find? (fun i => db.hasW i w) [1, 2, 3, 4, 5, 6] = some 1 from by
        simp [List.find?_cons, h1]]
      congr 1
      symm
      rw [Nat.find_eq_iff]
      exact ⟨⟨by simp, h1⟩, by intro n hn; interval_cases n; simp⟩
    · by_cases h2 : db.hasW 2 w = true
      · rw [show List.find? (fun i => db.hasW i w) [1, 2, 3, 4, 5, 6] = some 2 from by
          simp [List.find?_cons, h1, h2]]
        congr 1
        symm
        rw [Nat.find_eq_iff]
        exact ⟨⟨by simp, h2⟩, by intro n hn; interval_cases n <;> simp [h1]⟩
      · by_cases h3 : db.hasW 3 w = true
        · rw [show List.find? (fun i => db.hasW i w) [1, 2, 3, 4, 5, 6] = some 3 from by
            simp [List.find?_cons, h1, h2, h3]]
          congr 1
          symm
          rw [Nat.find_eq_iff]
          exact ⟨⟨by simp, h3⟩, by intro n hn; interval_cases n <;> simp [h1, h2]⟩
        · by_cases h4 : db.hasW 4 w = true
          · rw [show List.find? (fun i => db.hasW i w) [1, 2, 3, 4, 5, 6] = some 4 from by
              simp [List.find?_cons, h1, h2, h3, h4]]
            congr 1
            symm
            rw [Nat.find_eq_iff]
            exact ⟨⟨by simp, h4⟩, by intro n hn; interval_cases n <;> simp [h1, h2, h3]⟩
          · by_cases h5 : db.hasW 5 w = true
            · rw [show List.find? (fun i => db.hasW i w) [1, 2, 3, 4, 5, 6] = some 5 from by
                simp [List.find?_cons, h1, h2, h3, h4, h5]]
              congr 1
              symm
              rw [Nat.find_eq_iff]
              exact ⟨⟨by simp, h5⟩, by
                intro n hn; interval_cases n <;> simp [h1, h2, h3, h4]⟩
            · by_cases h6 : db.hasW 6 w = true
              · rw [show List.find? (fun i => db.hasW i w) [1, 2, 3, 4, 5, 6] = some 6 from by
                  simp [List.find?_cons, h1, h2, h3, h4, h5, h6]]
                congr 1
                symm
                rw [Nat.find_eq_iff]
                exact ⟨⟨by simp, h6⟩, by
                  intro n hn; interval_cases n <;> simp [h1, h2, h3, h4, h5]⟩
              · exfalso
                obtain ⟨i, hi, hw⟩ := h
                fin_cases hi <;> simp_all
  · rw [dif_neg h, List.find?_eq_none]
    intro i hi hw
    exact h ⟨i, hi, hw⟩

/-- C3: `getWordLevel` strips the token to letters and lowercases it, returns
0 below two letters, else the smallest tier (1..6) containing the cleaned
form exactly, else the smallest tier containing the lemma, else 99. -/
theorem getWordLevel_spec_characterization (irr : String → Option String)
    (word : String) (db : VocabDB) :
    getWordLevel irr word db = getWordLevelSpec irr word db := by
  simp only [getWordLevel, getWordLevelSpec, firstTier_eq_leastTier]

/-- The emission condition of `qualifiesTok`, in propositional form. -/
theorem qualifiesTok_iff (irr : String → Option String) (db : VocabDB)
    (w : String) :
    qualifiesTok irr db w = true ↔
      ((getWordLevel irr (toLowerL w) db ≥ 3 ∨ getWordLevel irr (toLowerL w) db = 99) ∧
        ¬(getWordLevel irr (toLowerL w) db = 99 ∧ isCapitalized w = true)) := by
  simp only [qualifiesTok, Bool.and_eq_true, Bool.or_eq_true, decide_eq_true_eq,
    Bool.not_eq_true']
  constructor
  · rintro ⟨hor, hneg⟩
    refine ⟨hor, ?_⟩
    rintro ⟨h99, hcap⟩
    simp [h99, hcap] at hneg
  · rintro ⟨hor, hneg⟩
    refine ⟨hor, ?_⟩
    by_cases h99 : getWordLevel irr (toLowerL w) db = 99
    · have hcap : isCapitalized w = false := by
        cases hc : isCapitalized w with
        | false => rfl
        | true => exact absurd ⟨h99, hc⟩ hneg
      simp [hcap]
    · simp [h99]

/-- The extractor loop equals filter-then-dedup on any token list and any
starting seen-set. -/
theorem analyzeAux_eq_spec (irr : String → Option String) (db : VocabDB) :
    ∀ (ws : List String) (seen : List String),
      analyzeAux irr db ws seen =
        (dedupByKeyAux toLowerL seen (ws.filter (qualifiesTok irr db))).map
          (fun w => ⟨w, getWordLevel irr (toLowerL w) db⟩) := by
  intro ws
  induction ws with
  | nil => intro seen; simp [analyzeAux, dedupByKeyAux]
  | cons w ws ih =>
    intro seen
    by_cases hq : qualifiesTok irr db w = true
    · have hiff := (qualifiesTok_iff irr db w).mp hq
      have hskip : ¬(getWordLevel irr (toLowerL w) db = 99 ∧ isCapitalized w = true) :=
        hiff.2
      by_cases hseen : toLowerL w ∈ seen
      · rw [show analyzeAux irr db (w :: ws) seen = analyzeAux irr db ws seen from by
          simp only [analyzeAux]
          rw [if_neg hskip, if_neg (by rintro ⟨-, hns⟩; exact hns hseen)]]
        rw [ih seen, List.filter_cons, if_pos hq]
        rw [show dedupByKeyAux toLowerL seen (w :: ws.filter (qualifiesTok irr db)) =
            dedupByKeyAux toLowerL seen (ws.filter (qualifiesTok irr db)) from by
          simp only [dedupByKeyAux]
          rw [if_pos hseen]]
      · rw [show analyzeAux irr db (w :: ws) seen =
            ⟨w, getWordLevel irr (toLowerL w) db⟩ ::
              analyzeAux irr db ws (toLowerL w :: seen) from by
          simp only [analyzeAux]
          rw [if_neg hskip, if_pos ⟨hiff.1, hseen⟩]]
        rw [ih (toLowerL w :: seen), List.filter_cons, if_pos hq]
        rw [show dedupByKeyAux toLowerL seen (w :: ws.filter (qualifiesTok irr db)) =
            w :: dedupByKeyAux toLowerL (toLowerL w :: seen)
              (ws.filter (qualifiesTok irr db)) from by
          simp only [dedupByKeyAux]
          rw [if_neg hseen]]
        simp
    · have hiff := (qualifiesTok_iff irr db w).not.mp hq
      push_neg at hiff
      rw [show analyzeAux irr db (w :: ws) seen = analyzeAux irr db ws seen from by
        simp only [analyzeAux]
        by_cases hskip : getWordLevel irr (toLowerL w) db = 99 ∧ isCapitalized w = true
        · rw [if_pos hskip]
        · rw [if_neg hskip]
          rw [if_neg (by
            rintro ⟨hor, -⟩
            exact hskip (hiff hor))]]
      rw [ih seen, List.filter_cons, if_neg hq]

/-- C4 (amended): the extractor emits exactly the qualifying tokens (tier at
least 3 or 99, minus capitalized tier-99 tokens), deduplicated by lowercase
form, in order of first **qualifying** occurrence, each entry carrying the
original casing of that occurrence together with its tier. -/
theorem analyzeTextForVocab_characterization (irr : String → Option String)
    (text : String) (db : VocabDB) :
    analyzeTextForVocab irr text db = extractSpec irr text db := by
  unfold analyzeTextForVocab extractSpec
  exact analyzeAux_eq_spec irr db (tokenize text) []

/-- C4 (counterexample): in "Foo bar foo" with tier 3 = {"bar"}, the output
lists "bar" before "foo" although the lowercase form "foo" occurs first in
the sentence (as the skipped capitalized token "Foo"): order follows first
qualifying occurrence, not first occurrence of the lowercase form. -/
theorem analyzeTextForVocab_order_counterexample :
    analyzeTextForVocab irrNone "Foo bar foo" dbBar = [⟨"bar", 3⟩, ⟨"foo", 99⟩] ∧
    (tokenize "Foo bar foo").map toLowerL = ["foo", "bar", "foo"] :=
  ⟨by decide, by decide⟩

/-- Invariant of the parser loop: every produced chapter either has exactly
one header segment, in first position, or is the "Start" placeholder with no
header segment. -/
theorem parseNovelAux_mem_shape :
    ∀ (lines : List String) (cur : Chapter) (ctr : Nat) (chaps : List Chapter),
      ((headerCount cur = 1 ∧ startsWithHeader cur = true) ∨
        (cur.title = "Start" ∧ headerCount cur = 0)) →
      (∀ c ∈ chaps, (headerCount c = 1 ∧ startsWithHeader c = true) ∨
        (c.title = "Start" ∧ headerCount c = 0)) →
      ∀ chap ∈ parseNovelAux lines cur ctr chaps,
        (headerCount chap = 1 ∧ startsWithHeader chap = true) ∨
        (chap.title = "Start" ∧ headerCount chap = 0) := by
  intro lines
  induction lines with
  | nil =>
    intro cur ctr chaps hcur hacc chap hchap
    rw [parseNovelAux] at hchap
    by_cases hlen : cur.segments.length > 0
    · rw [if_pos hlen, List.mem_append] at hchap
      rcases hchap with hin | hone
      · exact hacc chap hin
      · rw [List.mem_singleton] at hone
        exact hone ▸ hcur
    · rw [if_neg hlen] at hchap
      exact hacc chap hchap
  | cons line rest ih =>
    intro cur ctr chaps hcur hacc chap hchap
    rw [parseNovelAux] at hchap
    by_cases hblank : trimL line = ""
    · rw [if_pos hblank] at hchap
      exact ih cur ctr chaps hcur hacc chap hchap
    · rw [if_neg hblank] at hchap
      by_cases hhead : chapterRegexTest (trimL line) = true
      · rw [if_pos hhead] at hchap
        refine ih _ (ctr + 1) _ ?_ ?_ chap hchap
        · exact Or.inl ⟨by simp [headerCount, mkSegment], by simp [startsWithHeader, mkSegment]⟩
        · intro c hc
          by_cases hpush : cur.segments.length > 0 ∨ cur.title ≠ "Start"
          · rw [if_pos hpush, List.mem_append] at hc
            rcases hc with hin | hone
            · exact hacc c hin
            · rw [List.mem_singleton] at hone
              exact hone ▸ hcur
          · rw [if_neg hpush] at hc
            exact hacc c hc
      · rw [if_neg hhead] at hchap
        refine ih _ (ctr + 1) chaps ?_ hacc chap hchap
        rcases hcur with ⟨hone, hfst⟩ | ⟨htitle, hzero⟩
        · left
          constructor
          · simpa [headerCount, List.filter_append, mkSegment] using hone
          · cases hsegs : cur.segments with
            | nil => rw [startsWithHeader, hsegs] at hfst; cases hfst
            | cons s t =>
              simp only [startsWithHeader, hsegs] at hfst
              simp only [startsWithHeader, hsegs, List.cons_append]
              exact hfst
        · right
          exact ⟨htitle, by simpa [headerCount, List.filter_append, mkSegment] using hzero⟩

/-- C7 (amended): every chapter returned by `parseNovel` either has its first
segment as its unique header segment, or is the initial "Start" placeholder
chapter (emitted only when content precedes the first heading or no heading
exists), which has no header segment. -/
theorem parseNovel_header_shape (text : String) :
    ∀ chap ∈ parseNovel text,
      (headerCount chap = 1 ∧ startsWithHeader chap = true) ∨
      (chap.title = "Start" ∧ headerCount chap = 0) := by
  intro chap hchap
  refine parseNovelAux_mem_shape (splitLines text) _ 0 [] ?_ (by simp) chap hchap
  exact Or.inr ⟨rfl, rfl⟩

/-- Witness for C7 (amended) at the placeholder chapter of `parseNovel "hello"`. -/
theorem parseNovel_header_shape_witness :
    (headerCount chHello = 1 ∧ startsWithHeader chHello = true) ∨
    (chHello.title = "Start" ∧ headerCount chHello = 0) :=
  parseNovel_header_shape "hello" chHello (by decide)

/-- Invariant of the parser loop: all produced chapters are non-empty,
provided the accumulated ones are and the current one is whenever it is not
the placeholder. -/
theorem parseNovelAux_mem_nonempty :
    ∀ (lines : List String) (cur : Chapter) (ctr : Nat) (chaps : List Chapter),
      (cur.title ≠ "Start" → cur.segments ≠ []) →
      (∀ c ∈ chaps, c.segments ≠ []) →
      ∀ chap ∈ parseNovelAux lines cur ctr chaps, chap.segments ≠ [] := by
  intro lines
  induction lines with
  | nil =>
    intro cur ctr chaps hcur hacc chap hchap
    rw [parseNovelAux] at hchap
    by_cases hlen : cur.segments.length > 0
    · rw [if_pos hlen, List.mem_append] at hchap
      rcases hchap with hin | hone
      · exact hacc chap hin
      · rw [List.mem_singleton] at hone
        subst hone
        exact List.ne_nil_of_length_pos hlen
    · rw [if_neg hlen] at hchap
      exact hacc chap hchap
  | cons line rest ih =>
    intro cur ctr chaps hcur hacc chap hchap
    rw [parseNovelAux] at hchap
    by_cases hblank : trimL line = ""
    · rw [if_pos hblank] at hchap
      exact ih cur ctr chaps hcur hacc chap hchap
    · rw [if_neg hblank] at hchap
      by_cases hhead : chapterRegexTest (trimL line) = true
      · rw [if_pos hhead] at hchap
        refine ih _ (ctr + 1) _ (fun _ => by simp) ?_ chap hchap
        intro c hc
        by_cases hpush : cur.segments.length > 0 ∨ cur.title ≠ "Start"
        · rw [if_pos hpush, List.mem_append] at hc
          rcases hc with hin | hone
          · exact hacc c hin
          · rw [List.mem_singleton] at hone
            subst hone
            rcases hpush with hlen | htitle
            · exact List.ne_nil_of_length_pos hlen
            · exact hcur htitle
        · rw [if_neg hpush] at hc
          exact hacc c hc
      · rw [if_neg hhead] at hchap
        refine ih _ (ctr + 1) chaps (fun _ => by simp) hacc chap hchap

/-- C10: every chapter returned by `parseNovel` contains at least one
segment; no empty chapter, the initial placeholder included, is ever
emitted. -/
theorem parseNovel_chapters_nonempty (text : String) :
    ∀ chap ∈ parseNovel text, chap.segments ≠ [] := by
  intro chap hchap
  exact parseNovelAux_mem_nonempty (splitLines text) _ 0 []
    (fun h => absurd rfl h) (by simp) chap hchap

/-- Witness for C10 at `parseNovel "hello"`. -/
theorem parseNovel_chapters_nonempty_witness : chHello.segments ≠ [] :=
  parseNovel_chapters_nonempty "hello" chHello (by decide)

/-- Adding a content item to the batch adds its estimated text height. -/
theorem rowTextHeight_append (batch : List (PrintItem × Nat)) (cn : String)
    (en : Option String) (vocab : Option (List VocabWord)) (index : Nat) :
    rowTextHeight (batch ++ [(PrintItem.content cn en vocab, index)]) =
      rowTextHeight batch + estimateTextHeight en (some cn) := by
  simp [rowTextHeight, List.map_append, List.sum_append, itemTextHeight]

/-- Adding a content item to the batch adds its estimated card height. -/
theorem rowCardHeight_append (irr : String → Option String) (db : VocabDB)
    (batch : List (PrintItem × Nat)) (cn : String) (en : Option String)
    (vocab : Option (List VocabWord)) (index : Nat) :
    rowCardHeight irr db (batch ++ [(PrintItem.content cn en vocab, index)]) =
      rowCardHeight irr db batch +
        estimateCardHeight (getValidVocabCount irr vocab db) := by
  simp only [rowCardHeight, estimateCardHeight, List.map_append, List.sum_append,
    List.map_cons, List.map_nil, List.sum_cons, List.sum_nil, itemCardCount]
  push_cast
  ring

/-- The empty batch has zero card height. -/
theorem rowCardHeight_nil (irr : String → Option String) (db : VocabDB) :
    rowCardHeight irr db [] = 0 := by
  simp [rowCardHeight]

/-- The chunking loop, run with accumulators equal to the pending batch's
height sums, coincides with the claim-side loop that recomputes the sums. -/
theorem smartAux_eq_spec (irr : String → Option String) (db : VocabDB) :
    ∀ (rest : List (Nat × PrintItem)) (batch : List (PrintItem × Nat)),
      smartAux irr db rest batch (rowTextHeight batch) (rowCardHeight irr db batch) =
        smartSpecAux irr db rest batch := by
  intro rest
  induction rest with
  | nil => intro batch; rfl
  | cons p rest ih =>
    obtain ⟨index, item⟩ := p
    intro batch
    have hnil : smartAux irr db rest [] 0 0 = smartSpecAux irr db rest [] := by
      have h := ih []
      rwa [show rowTextHeight [] = 0 from rfl, rowCardHeight_nil] at h
    cases item with
    | content cn en vocab =>
      rw [smartAux, smartSpecAux]
      simp only [PrintItem.isContent, if_true]
      rw [← rowTextHeight_append batch cn en vocab index,
        ← rowCardHeight_append irr db batch cn en vocab index]
      by_cases hclose :
          rowTextHeight (batch ++ [(PrintItem.content cn en vocab, index)]) ≥
            rowCardHeight irr db (batch ++ [(PrintItem.content cn en vocab, index)]) * 0.95
      · rw [if_pos hclose, if_pos hclose, hnil]
      · rw [if_neg hclose, if_neg hclose, ih]
    | header text =>
      simp only [smartAux, smartSpecAux, PrintItem.isContent, Bool.false_eq_true, if_false]
      by_cases hempty : List.isEmpty batch = true
      · rw [if_pos hempty, if_pos hempty, ih]
      · rw [if_neg hempty, if_neg hempty, hnil]
    | pagebreak =>
      simp only [smartAux, smartSpecAux, PrintItem.isContent, Bool.false_eq_true, if_false]
      by_cases hempty : List.isEmpty batch = true
      · rw [if_pos hempty, if_pos hempty, ih]
      · rw [if_neg hempty, if_neg hempty, hnil]

/-- C5: the chunker closes the accumulating batch as a smartRow exactly when,
after adding a content item, the batch's accumulated estimated text height is
at least 0.95 times its accumulated estimated card height, where the card
height counts only the batch's vocabulary entries with tier between 3 and 6;
otherwise the next content item joins the same batch, and remaining content
items are flushed as a final smartRow at end of input. -/
theorem computeSmartChunks_threshold_characterization
    (irr : String → Option String) (items : List PrintItem) (db : VocabDB) :
    computeSmartChunks irr items db = smartChunksSpec irr items db := by
  unfold computeSmartChunks smartChunksSpec
  have h := smartAux_eq_spec irr db items.enum []
  rwa [show rowTextHeight [] = 0 from rfl, rowCardHeight_nil] at h

/-- Every batch emitted as a smartRow consists of content items only,
provided the pending batch does. -/
theorem smartAux_smartRow_content (irr : String → Option String) (db : VocabDB) :
    ∀ (rest : List (Nat × PrintItem)) (batch : List (PrintItem × Nat))
      (accT accC : ℚ),
      (∀ p ∈ batch, p.1.isContent = true) →
      ∀ b, Chunk.smartRow b ∈ smartAux irr db rest batch accT accC →
      ∀ p ∈ b, p.1.isContent = true := by
  intro rest
  induction rest with
  | nil =>
    intro batch accT accC hbatch b hb
    rw [smartAux] at hb
    by_cases hempty : List.isEmpty batch = true
    · rw [if_pos hempty] at hb
      cases hb
    · rw [if_neg hempty, List.mem_singleton] at hb
      cases hb
      exact hbatch
  | cons p rest ih =>
    obtain ⟨index, item⟩ := p
    intro batch accT accC hbatch b hb
    cases item with
    | content cn en vocab =>
      rw [smartAux] at hb
      have hbatch' : ∀ q ∈ batch ++ [(PrintItem.content cn en vocab, index)],
          q.1.isContent = true := by
        intro q hq
        rcases List.mem_append.mp hq with hq | hq
        · exact hbatch q hq
        · rw [List.mem_singleton] at hq
          subst hq
          rfl
      by_cases hclose :
          accT + estimateTextHeight en (some cn) ≥
            (accC + estimateCardHeight (getValidVocabCount irr vocab db)) * 0.95
      · rw [if_pos hclose] at hb
        rcases List.mem_cons.mp hb with hb | hb
        · cases hb
          exact hbatch'
        · exact ih [] 0 0 (by simp) b hb
      · rw [if_neg hclose] at hb
        exact ih _ _ _ hbatch' b hb
    | header text =>
      simp only [smartAux] at hb
      by_cases hempty : List.isEmpty batch = true
      · rw [if_pos hempty] at hb
        rcases List.mem_cons.mp hb with hb | hb
        · cases hb
        · exact ih _ _ _ hbatch b hb
      · rw [if_neg hempty] at hb
        rcases List.mem_cons.mp hb with hb | hb
        · cases hb
          exact hbatch
        · rcases List.mem_cons.mp hb with hb | hb
          · cases hb
          · exact ih [] 0 0 (by simp) b hb
    | pagebreak =>
      simp only [smartAux] at hb
      by_cases hempty : List.isEmpty batch = true
      · rw [if_pos hempty] at hb
        rcases List.mem_cons.mp hb with hb | hb
        · cases hb
        · exact ih _ _ _ hbatch b hb
      · rw [if_neg hempty] at hb
        rcases List.mem_cons.mp hb with hb | hb
        · cases hb
          exact hbatch
        · rcases List.mem_cons.mp hb with hb | hb
          · cases hb
          · exact ih [] 0 0 (by simp) b hb

/-- Every pending non-content item eventually appears as a standalone item
row. -/
theorem smartAux_item_mem (irr : String → Option String) (db : VocabDB) :
    ∀ (rest : List (Nat × PrintItem)) (batch : List (PrintItem × Nat))
      (accT accC : ℚ) (index : Nat) (it : PrintItem),
      (index, it) ∈ rest → it.isContent = false →
      Chunk.item it index ∈ smartAux irr db rest batch accT accC := by
  intro rest
  induction rest with
  | nil =>
    intro batch accT accC index it hmem
    cases hmem
  | cons p rest ih =>
    obtain ⟨j, x⟩ := p
    intro batch accT accC index it hmem hnc
    rcases List.mem_cons.mp hmem with heq | htail
    · obtain ⟨hj, hx⟩ := Prod.mk.injEq .. ▸ heq
      subst hj
      subst hx
      cases it with
      | content cn en vocab => cases hnc
      | header text =>
        simp only [smartAux]
        by_cases hempty : List.isEmpty batch = true
        · rw [if_pos hempty]
          exact List.mem_cons_self _ _
        · rw [if_neg hempty]
          exact List.mem_cons_of_mem _ (List.mem_cons_self _ _)
      | pagebreak =>
        simp only [smartAux]
        by_cases hempty : List.isEmpty batch = true
        · rw [if_pos hempty]
          exact List.mem_cons_self _ _
        · rw [if_neg hempty]
          exact List.mem_cons_of_mem _ (List.mem_cons_self _ _)
    · clear hmem
      cases x with
      | content cn en vocab =>
        rw [smartAux]
        by_cases hclose :
            accT + estimateTextHeight en (some cn) ≥
              (accC + estimateCardHeight (getValidVocabCount irr vocab db)) * 0.95
        · rw [if_pos hclose]
          exact List.mem_cons_of_mem _ (ih [] 0 0 index it htail hnc)
        · rw [if_neg hclose]
          exact ih _ _ _ index it htail hnc
      | header text =>
        simp only [smartAux]
        by_cases hempty : List.isEmpty batch = true
        · rw [if_pos hempty]
          exact List.mem_cons_of_mem _ (ih _ _ _ index it htail hnc)
        · rw [if_neg hempty]
          exact List.mem_cons_of_mem _ (List.mem_cons_of_mem _ (ih [] 0 0 index it htail hnc))
      | pagebreak =>
        simp only [smartAux]
        by_cases hempty : List.isEmpty batch = true
        · rw [if_pos hempty]
          exact List.mem_cons_of_mem _ (ih _ _ _ index it htail hnc)
        · rw [if_neg hempty]
          exact List.mem_cons_of_mem _ (List.mem_cons_of_mem _ (ih [] 0 0 index it htail hnc))

/-- C6: a header or break item never sits inside a smartRow; it always
appears as a standalone item row; encountering it forces a non-empty pending
batch of content items to be emitted as a smartRow immediately before it; in
particular, for [content, content, header, content] the header is in no
smartRow (the concrete equality shows the full grouping). -/
theorem computeSmartChunks_noncontent_isolated :
    (∀ (irr : String → Option String) (db : VocabDB) (items : List PrintItem)
        (batch : List (PrintItem × Nat)),
        Chunk.smartRow batch ∈ computeSmartChunks irr items db →
        ∀ p ∈ batch, p.1.isContent = true) ∧
    (∀ (irr : String → Option String) (db : VocabDB) (index : Nat)
        (it : PrintItem) (rest : List (Nat × PrintItem))
        (batch : List (PrintItem × Nat)) (accT accC : ℚ),
        it.isContent = false → List.isEmpty batch = false →
        smartAux irr db ((index, it) :: rest) batch accT accC =
          Chunk.smartRow batch :: Chunk.item it index ::
            smartAux irr db rest [] 0 0) ∧
    (∀ (irr : String → Option String) (db : VocabDB) (items : List PrintItem)
        (index : Nat) (it : PrintItem),
        items.get? index = some it → it.isContent = false →
        Chunk.item it index ∈ computeSmartChunks irr items db) ∧
    computeSmartChunks irrNone sampleItems emptyDB =
      [Chunk.smartRow [(sampleContent, 0), (sampleContent, 1)],
       Chunk.item sampleHeader 2, Chunk.smartRow [(sampleContent, 3)]] := by
  refine ⟨?_, ?_, ?_, ?_⟩
  · intro irr db items batch hmem
    exact smartAux_smartRow_content irr db items.enum [] 0 0 (by simp) batch hmem
  · intro irr db index it rest batch accT accC hnc hne
    cases it with
    | content cn en vocab => cases hnc
    | header text =>
      simp only [smartAux]
      rw [if_neg (by simp [hne])]
    | pagebreak =>
      simp only [smartAux]
      rw [if_neg (by simp [hne])]
  · intro irr db items index it hget hnc
    exact smartAux_item_mem irr db items.enum [] 0 0 index it
      (List.mem_enum_iff_get?.mpr hget) hnc
  · simp only [computeSmartChunks, sampleItems, sampleContent, sampleHeader,
      List.enum, smartAux, estimateTextHeight, estimateCardHeight,
      getValidVocabCount, effectiveLevel, lengthL]
    norm_num

/-- Witness for C6, at the concrete [content, content, header, content]
sequence and a pending one-element batch hit by a page break. -/
theorem computeSmartChunks_noncontent_isolated_witness :
    (∀ p ∈ [(sampleContent, 0), (sampleContent, 1)], p.1.isContent = true) ∧
    (Chunk.item sampleHeader 2 ∈ computeSmartChunks irrNone sampleItems emptyDB) ∧
    smartAux irrNone emptyDB [(5, PrintItem.pagebreak)] [(sampleContent, 0)] 1 2 =
      [Chunk.smartRow [(sampleContent, 0)], Chunk.item PrintItem.pagebreak 5] := by
  refine ⟨?_, ?_, ?_⟩
  · intro p hp
    refine computeSmartChunks_noncontent_isolated.1 irrNone emptyDB sampleItems
      [(sampleContent, 0), (sampleContent, 1)] ?_ p hp
    rw [computeSmartChunks_noncontent_isolated.2.2.2]
    decide
  · exact computeSmartChunks_noncontent_isolated.2.2.1 irrNone emptyDB sampleItems
      2 sampleHeader (by decide) (by decide)
  · rw [computeSmartChunks_noncontent_isolated.2.1 irrNone emptyDB 5
      PrintItem.pagebreak [] [(sampleContent, 0)] 1 2 (by decide) (by decide)]
    rfl

/-- A `segUpdate` step never changes the segment id. -/
theorem segUpdate_id (p : Segment → Bool) (f : Segment → Segment) (id : String)
    (hf : ∀ s, (f s).id = s.id) (s : Segment) : (segUpdate p f id s).id = s.id := by
  simp only [segUpdate]
  split_ifs <;> simp [hf]

/-- Under unique ids, the first-match update is the pointwise update. -/
theorem updateSegIf_eq_map (p : Segment → Bool) (f : Segment → Segment)
    (id : String) :
    ∀ segs : List Segment, (segs.map Segment.id).Nodup →
      updateSegIf p f id segs = segs.map (segUpdate p f id) := by
  intro segs
  induction segs with
  | nil => intro _; rfl
  | cons s rest ih =>
    intro hnd
    have hnd2 : s.id ∉ rest.map Segment.id ∧ (rest.map Segment.id).Nodup :=
      List.nodup_cons.mp (by simpa only [List.map_cons] using hnd)
    by_cases hs : s.id = id
    · have hni : ∀ s' ∈ rest, segUpdate p f id s' = s' := by
        intro s' hs'
        have hne : ¬s'.id = id := by
          intro he
          exact hnd2.1 (by
            rw [hs, ← he]
            exact List.mem_map_of_mem _ hs')
        simp [segUpdate, hne]
      rw [updateSegIf, if_pos hs, List.map_cons,
        (List.map_congr_left hni).trans (List.map_id' rest)]
      by_cases hp : p s = true <;> simp [segUpdate, hs, hp]
    · rw [updateSegIf, if_neg hs, List.map_cons, ih hnd2.2]
      congr 1
      simp [segUpdate, hs]

/-- `updateChapters` under unique ids, as a pointwise map. -/
theorem updateChapters_eq_map (p : Segment → Bool) (f : Segment → Segment)
    (id : String) (chaps : List Chapter)
    (h : ∀ ch ∈ chaps, (ch.segments.map Segment.id).Nodup) :
    updateChapters p f id chaps =
      chaps.map fun ch =>
        { ch with segments := ch.segments.map (segUpdate p f id) } := by
  unfold updateChapters
  exact List.map_congr_left fun ch hch => by
    rw [updateSegIf_eq_map p f id ch.segments (h ch hch)]

/-- A fold of keyed conditional chapter updates is the pointwise fold on each
segment, provided ids are unique per chapter and preserved by the updates. -/
theorem foldl_updateChapters {α : Type} (p : Segment → Bool) (keyOf : α → String)
    (f : α → Segment → Segment) (hf : ∀ a s, (f a s).id = s.id) :
    ∀ (as : List α) (chaps : List Chapter),
      (∀ ch ∈ chaps, (ch.segments.map Segment.id).Nodup) →
      as.foldl (fun cs a => updateChapters p (f a) (keyOf a) cs) chaps =
        chaps.map fun ch =>
          { ch with segments :=
              ch.segments.map fun s =>
                as.foldl (fun s a => segUpdate p (f a) (keyOf a) s) s } := by
  intro as
  induction as with
  | nil =>
    intro chaps _
    simp [List.foldl_nil, List.map_id']
  | cons a as ih =>
    intro chaps hnd
    rw [List.foldl_cons, updateChapters_eq_map p (f a) (keyOf a) chaps hnd,
      ih _ (by
        intro ch hmem
        obtain ⟨ch0, hch0, rfl⟩ := List.mem_map.mp hmem
        have hids : (ch0.segments.map (segUpdate p (f a) (keyOf a))).map Segment.id =
            ch0.segments.map Segment.id := by
          rw [List.map_map]
          exact List.map_congr_left fun s _ => segUpdate_id p (f a) (keyOf a) (hf a) s
        simpa [hids] using hnd ch0 hch0),
      List.map_map]
    refine List.map_congr_left fun ch _ => ?_
    simp only [Function.comp]
    rw [List.map_map]
    rfl

/-- `updateSegIf` with the identity update changes nothing. -/
theorem updateSegIf_id_fun (p : Segment → Bool) (id : String) :
    ∀ segs : List Segment, updateSegIf p (fun s => s) id segs = segs := by
  intro segs
  induction segs with
  | nil => rfl
  | cons s rest ih =>
    rw [updateSegIf]
    by_cases hs : s.id = id
    · rw [if_pos hs]
      by_cases hp : p s = true <;> simp [hp]
    · rw [if_neg hs, ih]

/-- `updateChapters` with the identity update changes nothing. -/
theorem updateChapters_id_fun (p : Segment → Bool) (id : String)
    (chaps : List Chapter) : updateChapters p (fun s => s) id chaps = chaps := by
  unfold updateChapters
  refine (List.map_congr_left ?_).trans (List.map_id' chaps)
  intro ch _
  rw [updateSegIf_id_fun]

/-- Pointwise-equal fold functions give equal folds. -/
theorem foldl_congr_fun {α β : Type} {f g : β → α → β} (h : ∀ b a, f b a = g b a) :
    ∀ (l : List α) (b : β), l.foldl f b = l.foldl g b := by
  intro l
  induction l with
  | nil => intro b; rfl
  | cons a l ih => intro b; rw [List.foldl_cons, List.foldl_cons, h, ih]

/-- The guarded error-marking step of `handleGenerateNotes`, as an unguarded
update with a conditional per-segment function. -/
theorem errStep_eq (succ : List String) (id : String) (cs : List Chapter) :
    (if id ∈ succ then cs
      else updateChapters (fun _ => true)
        (fun s => { s with status := .error }) id cs) =
      updateChapters (fun _ => true)
        (fun s => if id ∈ succ then s else { s with status := .error }) id cs := by
  by_cases h : id ∈ succ
  · rw [if_pos h,
      show (fun s : Segment => if id ∈ succ then s else { s with status := .error }) =
        fun s => s from funext fun s => if_pos h,
      updateChapters_id_fun]
  · rw [if_neg h,
      show (fun s : Segment => if id ∈ succ then s else { s with status := .error }) =
        fun s => { s with status := SegStatus.error } from funext fun s => if_neg h]

/-- A fold fixed on every member of the list is the identity. -/
theorem foldl_fixed_mem {α β : Type} (f : α → β → α) (a : α) :
    ∀ l : List β, (∀ b ∈ l, f a b = a) → l.foldl f a = a := by
  intro l
  induction l with
  | nil => intro _; rfl
  | cons b l ih =>
    intro h
    rw [List.foldl_cons, h b (by simp)]
    exact ih fun b' hb' => h b' (by simp [hb'])

/-- Evaluation of the per-segment processing fold: a requested segment with a
truthy translation is marked `processing`, everything else is untouched. -/
theorem foldl_segUpdate_proc (ids : List String) :
    ∀ s : Segment,
      ids.foldl (fun s id =>
          segUpdate truthyEn (fun s => { s with status := .processing }) id s) s =
        if s.id ∈ ids ∧ truthyEn s = true then { s with status := .processing }
        else s := by
  induction ids with
  | nil => intro s; simp
  | cons id ids ih =>
    intro s
    rw [List.foldl_cons]
    by_cases hs : s.id = id
    · by_cases ht : truthyEn s = true
      · rw [show segUpdate truthyEn (fun s => { s with status := .processing }) id s =
            { s with status := .processing } from by simp [segUpdate, hs, ht]]
        rw [List.foldl_fixed' (fun id' => by
          simp only [segUpdate]
          split_ifs with h1 h2 <;> rfl) ids]
        rw [if_pos ⟨by simp [hs], ht⟩]
      · rw [show segUpdate truthyEn (fun s => { s with status := .processing }) id s = s
            from by simp [segUpdate, hs, ht]]
        rw [ih s, if_neg (fun hc => ht hc.2), if_neg (fun hc => ht hc.2)]
    · rw [show segUpdate truthyEn (fun s => { s with status := .processing }) id s = s
          from by simp [segUpdate, hs]]
      rw [ih s]
      exact if_congr (by simp [List.mem_cons, hs]) rfl rfl

/-- Evaluation of the per-segment result-attaching fold under unique result
ids: the segment whose id has a result gets it attached and is marked `done`. -/
theorem foldl_segUpdate_attach :
    ∀ results : List VocabResult, (results.map VocabResult.id).Nodup →
      ∀ s : Segment,
        results.foldl (fun s res =>
            segUpdate (fun _ => true)
              (fun s => { s with vocabResult := some res, status := .done })
              res.id s) s =
          match results.find? (fun r => r.id == s.id) with
          | some r => { s with vocabResult := some r, status := .done }
          | none => s := by
  intro results
  induction results with
  | nil => intro _ s; rfl
  | cons r rs ih =>
    intro hnd s
    have hnd2 : r.id ∉ rs.map VocabResult.id ∧ (rs.map VocabResult.id).Nodup :=
      List.nodup_cons.mp (by simpa only [List.map_cons] using hnd)
    rw [List.foldl_cons]
    by_cases hr : r.id = s.id
    · rw [show segUpdate (fun _ => true)
          (fun s => { s with vocabResult := some r, status := .done }) r.id s =
          { s with vocabResult := some r, status := .done } from by
        simp [segUpdate, hr.symm]]
      rw [foldl_fixed_mem _ _ rs (fun r' hr' => by
        have hne : ¬s.id = r'.id := by
          intro he
          exact hnd2.1 (by
            rw [hr, he]
            exact List.mem_map_of_mem _ hr')
        simp [segUpdate, hne])]
      rw [List.find?_cons_of_pos _ (by simp [hr])]
    · have hne : ¬s.id = r.id := fun h => hr h.symm
      rw [show segUpdate (fun _ => true)
          (fun s => { s with vocabResult := some r, status := .done }) r.id s = s
          from by simp [segUpdate, hne]]
      rw [ih hnd2.2 s, List.find?_cons_of_neg _ (by simp [hr])]

/-- Evaluation of the per-segment error-marking fold: a segment whose id is
in the payload but not among the succeeded ids is marked `error`. -/
theorem foldl_segUpdate_err (succ : List String) :
    ∀ (ids : List String) (s : Segment),
      ids.foldl (fun s id =>
          segUpdate (fun _ => true)
            (fun s => if id ∈ succ then s else { s with status := .error }) id s) s =
        if s.id ∈ ids ∧ s.id ∉ succ then { s with status := .error } else s := by
  intro ids
  induction ids with
  | nil => intro s; simp
  | cons id ids ih =>
    intro s
    rw [List.foldl_cons]
    by_cases hs : s.id = id
    · by_cases hsucc : id ∈ succ
      · rw [show segUpdate (fun _ => true)
            (fun s => if id ∈ succ then s else { s with status := .error }) id s = s
            from by simp [segUpdate, hs, hsucc]]
        rw [ih s, if_neg (fun hc => hc.2 (hs ▸ hsucc)),
          if_neg (fun hc => hc.2 (hs ▸ hsucc))]
      · rw [show segUpdate (fun _ => true)
            (fun s => if id ∈ succ then s else { s with status := .error }) id s =
            { s with status := .error } from by simp [segUpdate, hs, hsucc]]
        rw [List.foldl_fixed' (fun id' => by
          simp only [segUpdate]
          split_ifs <;> rfl) ids]
        rw [if_pos ⟨by simp [hs], hs ▸ hsucc⟩]
    · rw [show segUpdate (fun _ => true)
          (fun s => if id ∈ succ then s else { s with status := .error }) id s = s
          from by simp [segUpdate, hs]]
      rw [ih s]
      exact if_congr (by simp [List.mem_cons, hs]) rfl rfl

/-- Per-chapter id uniqueness follows from global id uniqueness. -/
theorem chapters_nodup_of_global (chaps : List Chapter)
    (hN : ((allSegments chaps).map Segment.id).Nodup) :
    ∀ ch ∈ chaps, (ch.segments.map Segment.id).Nodup := by
  intro ch hch
  have hsub : ch.segments.Sublist (allSegments chaps) :=
    List.sublist_join_of_mem (List.mem_map_of_mem _ hch)
  exact List.Nodup.sublist (List.Sublist.map Segment.id hsub) hN

/-- Under globally unique ids, an id is in the request payload exactly when
its (unique) segment is requested and carries a truthy translation. -/
theorem mem_payloadIds_iff (chaps : List Chapter) (segmentIds : List String)
    (hN : ((allSegments chaps).map Segment.id).Nodup)
    {ch : Chapter} (hch : ch ∈ chaps) {s : Segment} (hs : s ∈ ch.segments) :
    s.id ∈ payloadIds chaps segmentIds ↔
      (s.id ∈ segmentIds ∧ truthyEn s = true) := by
  have hmemAll : s ∈ allSegments chaps :=
    List.mem_flatten.mpr ⟨ch.segments, List.mem_map_of_mem _ hch, hs⟩
  have hinj := List.inj_on_of_nodup_map hN
  unfold payloadIds
  rw [List.mem_filter]
  constructor
  · rintro ⟨hin, hany⟩
    refine ⟨hin, ?_⟩
    rw [List.any_eq_true] at hany
    obtain ⟨ch', hch', hmatch⟩ := hany
    cases hf : ch'.segments.find? (fun s' => s'.id == s.id) with
    | none => rw [hf] at hmatch; cases hmatch
    | some s' =>
      rw [hf] at hmatch
      have hs' : s' ∈ allSegments chaps :=
        List.mem_flatten.mpr
          ⟨ch'.segments, List.mem_map_of_mem _ hch', List.mem_of_find?_eq_some hf⟩
      have hid : s'.id = s.id := by simpa using List.find?_some hf
      have heq : s' = s := hinj hs' hmemAll hid
      rwa [← heq]
  · rintro ⟨hin, htrue⟩
    refine ⟨hin, ?_⟩
    rw [List.any_eq_true]
    refine ⟨ch, hch, ?_⟩
    have hex : ∃ x ∈ ch.segments, (x.id == s.id) = true := ⟨s, hs, by simp⟩
    obtain ⟨s'', hf⟩ := Option.isSome_iff_exists.mp (List.find?_isSome.mpr hex)
    rw [hf]
    have hs'' : s'' ∈ allSegments chaps :=
      List.mem_flatten.mpr
        ⟨ch.segments, List.mem_map_of_mem _ hch, List.mem_of_find?_eq_some hf⟩
    have hid : s''.id = s.id := by simpa using List.find?_some hf
    rw [hinj hs'' hmemAll hid]
    exact htrue

/-- Per-segment folds of id-preserving updates preserve the id. -/
theorem foldl_segUpdate_preserves_id {α : Type} (p : Segment → Bool)
    (keyOf : α → String) (f : α → Segment → Segment)
    (hf : ∀ a s, (f a s).id = s.id) :
    ∀ (as : List α) (s : Segment),
      (as.foldl (fun s a => segUpdate p (f a) (keyOf a) s) s).id = s.id := by
  intro as
  induction as with
  | nil => intro s; rfl
  | cons a as ih =>
    intro s
    rw [List.foldl_cons, ih]
    exact segUpdate_id p (f a) (keyOf a) (hf a) s

/-- Id-preserving per-segment maps preserve per-chapter id uniqueness. -/
theorem mapped_chapters_nodup (chaps : List Chapter) (g : Segment → Segment)
    (hg : ∀ s, (g s).id = s.id)
    (hch : ∀ ch ∈ chaps, (ch.segments.map Segment.id).Nodup) :
    ∀ ch ∈ chaps.map (fun ch => { ch with segments := ch.segments.map g }),
      (ch.segments.map Segment.id).Nodup := by
  intro ch hmem
  obtain ⟨ch0, hch0, rfl⟩ := List.mem_map.mp hmem
  have hids : (ch0.segments.map g).map Segment.id = ch0.segments.map Segment.id := by
    rw [List.map_map]
    exact List.map_congr_left fun s _ => hg s
  simpa [hids] using hch ch0 hch0

/-- C9 (amended): under globally unique segment ids, when the annotation
collaborator returns at most one result per id and only for ids that were
actually sent (the request payload: requested segments with a truthy
translation), applying the results sets status `done` and attaches the
result for each payload segment whose id appears in the results, sets status
`error` for each payload segment whose id is absent, and leaves every other
segment — segments outside the request, and requested segments without a
truthy translation (which never enter the payload) — unchanged; a missing id
never causes sibling results to be discarded. -/
theorem handleGenerateNotes_partial_failure (chaps : List Chapter) (segmentIds : List String)
    (results : List VocabResult)
    (hN : ((allSegments chaps).map Segment.id).Nodup)
    (hres : ∀ r ∈ results, r.id ∈ payloadIds chaps segmentIds)
    (hresN : (results.map VocabResult.id).Nodup) :
    handleGenerateNotes chaps segmentIds results =
      chaps.map fun ch =>
        { ch with segments := ch.segments.map (segSpec segmentIds results) } := by
  have hch1 : ∀ ch ∈ chaps, (ch.segments.map Segment.id).Nodup :=
    chapters_nodup_of_global chaps hN
  have hch2 : ∀ ch ∈ chaps.map (fun ch =>
      { ch with segments := ch.segments.map (fun s =>
          segmentIds.foldl (fun s a =>
            segUpdate truthyEn (fun s => { s with status := .processing }) a s) s) }),
      (ch.segments.map Segment.id).Nodup :=
    mapped_chapters_nodup chaps _
      (fun s => foldl_segUpdate_preserves_id truthyEn (fun id => id)
        (fun _ s => { s with status := .processing }) (fun _ _ => rfl) segmentIds s)
      hch1
  simp only [handleGenerateNotes]
  rw [foldl_updateChapters truthyEn (fun id => id)
    (fun _ s => { s with status := .processing }) (fun _ _ => rfl) segmentIds chaps hch1]
  rw [foldl_updateChapters (fun _ => true) VocabResult.id
    (fun res s => { s with vocabResult := some res, status := .done })
    (fun _ _ => rfl) results _ hch2]
  rw [foldl_congr_fun
    (fun cs id => errStep_eq (List.map (fun x => x.id) results) id cs)
    (payloadIds chaps segmentIds)]
  rw [foldl_updateChapters (fun _ => true) (fun id => id)
    (fun id s => if id ∈ List.map (fun x => x.id) results then s
      else { s with status := .error })
    (fun a s => by by_cases h : a ∈ List.map (fun x => x.id) results <;> simp [h])
    (payloadIds chaps segmentIds) _
    (mapped_chapters_nodup _ _
      (fun s => foldl_segUpdate_preserves_id (fun _ => true) VocabResult.id
        (fun res s => { s with vocabResult := some res, status := .done })
        (fun _ _ => rfl) results s)
      hch2)]
  rw [List.map_map, List.map_map]
  refine List.map_congr_left fun ch hchm => ?_
  simp only [Function.comp]
  rw [List.map_map, List.map_map]
  refine congrArg (fun segs => Chapter.mk ch.title segs ch.isTranslated) ?_
  refine List.map_congr_left fun s hs => ?_
  simp only [Function.comp]
  rw [foldl_segUpdate_proc segmentIds s]
  by_cases hP : s.id ∈ segmentIds ∧ truthyEn s = true
  · rw [if_pos hP]
    rw [foldl_segUpdate_attach results hresN]
    dsimp only
    cases hf : results.find? (fun r => r.id == s.id) with
    | some r =>
      dsimp only
      rw [foldl_segUpdate_err]
      dsimp only
      have hsucc : s.id ∈ List.map (fun x => x.id) results := by
        refine List.mem_map.mpr ⟨r, List.mem_of_find?_eq_some hf, ?_⟩
        simpa using List.find?_some hf
      rw [if_neg (fun hc => hc.2 hsucc)]
      simp [segSpec, hP, hf]
    | none =>
      dsimp only
      rw [foldl_segUpdate_err]
      dsimp only
      have hpid : s.id ∈ payloadIds chaps segmentIds :=
        (mem_payloadIds_iff chaps segmentIds hN hchm hs).mpr hP
      have hnsucc : s.id ∉ List.map (fun x => x.id) results := by
        intro hmem
        obtain ⟨r, hr, hrid⟩ := List.mem_map.mp hmem
        have hnone := List.find?_eq_none.mp hf r hr
        simp [hrid] at hnone
      rw [if_pos ⟨hpid, hnsucc⟩]
      simp [segSpec, hP, hf]
  · rw [if_neg hP]
    have hf : results.find? (fun r => r.id == s.id) = none := by
      rw [List.find?_eq_none]
      intro r hr hbeq
      have hrid : r.id = s.id := by simpa using hbeq
      exact hP ((mem_payloadIds_iff chaps segmentIds hN hchm hs).mp (hrid ▸ hres r hr))
    rw [foldl_segUpdate_attach results hresN, hf]
    dsimp only
    rw [foldl_segUpdate_err]
    rw [if_neg (fun hc => hP ((mem_payloadIds_iff chaps segmentIds hN hchm hs).mp hc.1))]
    simp [segSpec, hP]

/-- Witness for C9 (amended): one batch with a succeeding segment, a failing
segment, an untranslated requested segment and a segment outside the
request. -/
theorem handleGenerateNotes_partial_failure_witness :
    handleGenerateNotes chSample ["seg-0", "seg-1", "seg-2"] [resSample] =
      chSample.map fun ch =>
        { ch with segments :=
            ch.segments.map (segSpec ["seg-0", "seg-1", "seg-2"] [resSample]) } :=
  handleGenerateNotes_partial_failure chSample ["seg-0", "seg-1", "seg-2"]
    [resSample] (by decide) (by decide) (by decide)

/-- C9 (counterexample): a requested segment with no translated text is never
put into the request payload, so when its id is (necessarily) absent from
the results its status stays `pending` — it is not set to `error` as the
claim states for every requested segment. -/
theorem handleGenerateNotes_counterexample :
    handleGenerateNotes
        [⟨"Start", [⟨"seg-0", "hi", false, .pending, none, none⟩], false⟩]
        ["seg-0"] [] =
      [⟨"Start", [⟨"seg-0", "hi", false, .pending, none, none⟩], false⟩] ∧
    SegStatus.pending ≠ SegStatus.error :=
  ⟨by decide, by decide⟩
